import Mathlib

/-!
# Verification of the stwo sha256 commitment layer

A shallow embedding, in Lean 4, of the sha256-based vector-commitment engine,
Fiat-Shamir channel and quotient accumulation of the repository, together with
theorems settling the specification claims.

Bytes are modelled as `Nat` values below 256, 32-byte hashes as `List Nat` of
length 32, and the sha2 crate's SHA-256 is implemented executably on such byte
lists (validated below against the repository's own test vector for the string
made of the single byte 97).
-/

set_option maxRecDepth 10000

/-! ## SHA-256 on byte lists (the external sha2 crate dependency) -/

/-- Truncate to a 32-bit word. -/
def w32 (x : Nat) : Nat := x % 2 ^ 32

/-- 32-bit rotate right. -/
def rotr32 (n x : Nat) : Nat := ((x >>> n) ||| (x <<< (32 - n))) % 2 ^ 32

/-- SHA-256 choice function. -/
def shaCh (x y z : Nat) : Nat := (x &&& y) ^^^ ((x ^^^ (2 ^ 32 - 1)) &&& z)

/-- SHA-256 majority function. -/
def shaMaj (x y z : Nat) : Nat := (x &&& y) ^^^ (x &&& z) ^^^ (y &&& z)

/-- SHA-256 big sigma 0. -/
def bigSigA (x : Nat) : Nat := rotr32 2 x ^^^ rotr32 13 x ^^^ rotr32 22 x

/-- SHA-256 big sigma 1. -/
def bigSigB (x : Nat) : Nat := rotr32 6 x ^^^ rotr32 11 x ^^^ rotr32 25 x

/-- SHA-256 small sigma 0. -/
def smallSigA (x : Nat) : Nat := rotr32 7 x ^^^ rotr32 18 x ^^^ (x >>> 3)

/-- SHA-256 small sigma 1. -/
def smallSigB (x : Nat) : Nat := rotr32 17 x ^^^ rotr32 19 x ^^^ (x >>> 10)

/-- Little-endian byte serialization of a natural number on `n` bytes. -/
def leBytes : Nat → Nat → List Nat
  | 0, _ => []
  | n + 1, x => x % 256 :: leBytes n (x / 256)

/-- Big-endian byte serialization of a natural number on `n` bytes. -/
def beBytes : Nat → Nat → List Nat
  | 0, _ => []
  | n + 1, x => beBytes n (x / 256) ++ [x % 256]

/-- Big-endian 32-bit word from a list of bytes. -/
def beU32 (bs : List Nat) : Nat := bs.foldl (fun a b => a * 256 + b) 0

/-- SHA-256 round constants. -/
def shaK : List Nat :=
  [1116352408, 1899447441, 3049323471, 3921009573, 961987163, 1508970993,
   2453635748, 2870763221, 3624381080, 310598401, 607225278, 1426881987,
   1925078388, 2162078206, 2614888103, 3248222580, 3835390401, 4022224774,
   264347078, 604807628, 770255983, 1249150122, 1555081692, 1996064986,
   2554220882, 2821834349, 2952996808, 3210313671, 3336571891, 3584528711,
   113926993, 338241895, 666307205, 773529912, 1294757372, 1396182291,
   1695183700, 1986661051, 2177026350, 2456956037, 2730485921, 2820302411,
   3259730800, 3345764771, 3516065817, 3600352804, 4094571909, 275423344,
   430227734, 506948616, 659060556, 883997877, 958139571, 1322822218,
   1537002063, 1747873779, 1955562222, 2024104815, 2227730452, 2361852424,
   2428436474, 2756734187, 3204031479, 3329325298]

/-- SHA-256 initial state. -/
def shaH0 : List Nat :=
  [1779033703, 3144134277, 1013904242, 2773480762,
   1359893119, 2600822924, 528734635, 1541459225]

/-- SHA-256 message padding: a 0x80 byte, zeros, and the 64-bit big-endian bit length. -/
def shaPad (msg : List Nat) : List Nat :=
  msg ++ 128 :: List.replicate ((64 - (msg.length + 9) % 64) % 64) 0 ++ beBytes 8 (8 * msg.length)

/-- One message-schedule extension step. -/
def schedStep (w : List Nat) : List Nat :=
  w ++ [(smallSigB (w.getD (w.length - 2) 0) + w.getD (w.length - 7) 0 +
         smallSigA (w.getD (w.length - 15) 0) + w.getD (w.length - 16) 0) % 2 ^ 32]

/-- Iterate the message-schedule extension. -/
def schedExtend : Nat → List Nat → List Nat
  | 0, w => w
  | k + 1, w => schedExtend k (schedStep w)

/-- The 64-word message schedule of one 64-byte block. -/
def shaSchedule (block : List Nat) : List Nat :=
  schedExtend 48 ((List.range 16).map (fun j => beU32 ((block.drop (4 * j)).take 4)))

/-- One SHA-256 round on the 8-word working state. -/
def shaRound (s : List Nat) (w k : Nat) : List Nat :=
  let a := s.getD 0 0
  let b := s.getD 1 0
  let c := s.getD 2 0
  let d := s.getD 3 0
  let e := s.getD 4 0
  let f := s.getD 5 0
  let g := s.getD 6 0
  let h := s.getD 7 0
  let t1 := (h + bigSigB e + shaCh e f g + k + w) % 2 ^ 32
  let t2 := (bigSigA a + shaMaj a b c) % 2 ^ 32
  [(t1 + t2) % 2 ^ 32, a, b, c, (d + t1) % 2 ^ 32, e, f, g]

/-- SHA-256 compression of one 64-byte block into the 8-word chaining state. -/
def shaCompress (h : List Nat) (block : List Nat) : List Nat :=
  let s := ((shaSchedule block).zip shaK).foldl (fun s p => shaRound s p.1 p.2) h
  (h.zip s).map (fun p => (p.1 + p.2) % 2 ^ 32)

/-- SHA-256 of a byte list, as a 32-byte list. -/
def sha256 (msg : List Nat) : List Nat :=
  let padded := shaPad msg
  let hfin := (List.range (padded.length / 64)).foldl
    (fun h i => shaCompress h ((padded.drop (64 * i)).take 64)) shaH0
  (hfin.map (beBytes 4)).flatten

/-! ## The field tower: M31, CM31, QM31 (external field-arithmetic dependency)

The base field is the integers modulo the Mersenne prime 2^31 - 1; CM31 adjoins
i with i^2 = -1; QM31 adjoins u with u^2 = 2 + i, following the repository's
fields crate (consumed as an external interface by the code under src).
-/

/-- The base field: integers modulo 2^31 - 1. -/
abbrev M31 : Type := ZMod (2 ^ 31 - 1)

/-- The quadratic extension CM31 = M31[i] / (i^2 + 1). -/
@[ext]
structure CM31 where
  re : M31
  im : M31
deriving DecidableEq

instance : Zero CM31 := ⟨⟨0, 0⟩⟩
instance : One CM31 := ⟨⟨1, 0⟩⟩
instance : Add CM31 := ⟨fun x y => ⟨x.re + y.re, x.im + y.im⟩⟩
instance : Sub CM31 := ⟨fun x y => ⟨x.re - y.re, x.im - y.im⟩⟩
instance : Mul CM31 := ⟨fun x y => ⟨x.re * y.re - x.im * y.im, x.re * y.im + x.im * y.re⟩⟩

/-- The quartic (secure) extension QM31 = CM31[u] / (u^2 - (2 + i)). -/
@[ext]
structure QM31 where
  c0 : CM31
  c1 : CM31
deriving DecidableEq

/-- The defining constant 2 + i of the second extension step. -/
def rQM31 : CM31 := ⟨2, 1⟩

instance : Zero QM31 := ⟨⟨0, 0⟩⟩
instance : One QM31 := ⟨⟨1, 0⟩⟩
instance : Add QM31 := ⟨fun x y => ⟨x.c0 + y.c0, x.c1 + y.c1⟩⟩
instance : Sub QM31 := ⟨fun x y => ⟨x.c0 - y.c0, x.c1 - y.c1⟩⟩
instance : Mul QM31 := ⟨fun x y => ⟨x.c0 * y.c0 + rQM31 * (x.c1 * y.c1), x.c0 * y.c1 + x.c1 * y.c0⟩⟩

/-- Embedding of the base field into CM31 (the Rust From impl). -/
def cm31OfM31 (v : M31) : CM31 := ⟨v, 0⟩

/-- Embedding of CM31 into QM31 (the Rust From impl). -/
def qm31OfCM31 (c : CM31) : QM31 := ⟨c, 0⟩

/-! ## Byte serialization of field elements

Modelled from the spec: `bws_num_to_bytes` and `sha256_qm31` live in
core/utils.rs, which is not under src; the spec only requires a fixed byte
serialization of field values shared bit-for-bit by prover and verifier
(section 4.1 and `mix_felts`' `H(serialize(e) ‖ digest)`). They are modelled as
little-endian encodings of the canonical representatives.
-/

/-- Modelled from the spec: 4-byte little-endian serialization of a base-field value,
standing in for `bws_num_to_bytes` (core/utils.rs, not under src). -/
def m31Bytes (v : M31) : List Nat := leBytes 4 v.val

/-- Modelled from the spec: 16-byte serialization of a secure-field element,
standing in for `sha256_qm31` (core/utils.rs, not under src). -/
def qm31Bytes (x : QM31) : List Nat :=
  m31Bytes x.c0.re ++ m31Bytes x.c0.im ++ m31Bytes x.c1.re ++ m31Bytes x.c1.im

/-! ## The Merkle hasher (vcs/sha256_merkle.rs) -/

/-- The chained column hash computed by the loop in `Sha256MerkleHasher::hash_node`:
start from the hash of the last attached value, then fold the remaining values
from index len-2 down to 0 with hash = H(value ‖ hash). Returns none for an
empty value list. -/
def columnHashCode (vals : List M31) : Option (List Nat) :=
  match vals.getLast? with
  | none => none
  | some vlast =>
    some (List.foldr (fun v h => sha256 (m31Bytes v ++ h)) (sha256 (m31Bytes vlast)) vals.dropLast)

/-- `Sha256MerkleHasher::hash_node` (vcs/sha256_merkle.rs): the four-way match on
the presence of children hashes and of a column hash, feeding the concatenation
into a final sha256. -/
def hashNode (childrenHashes : Option (List Nat × List Nat)) (columnValues : List M31) :
    List Nat :=
  match childrenHashes, columnHashCode columnValues with
  | some ch, some colHash => sha256 (ch.1 ++ colHash ++ ch.2)
  | some ch, none => sha256 (ch.1 ++ ch.2)
  | none, some colHash => sha256 colHash
  | none, none => sha256 []

/-! ## The Fiat-Shamir channel (channel/sha256.rs) -/

/-- The channel: a single 32-byte digest (channel/sha256.rs). -/
@[ext]
structure Sha256Channel where
  digest : List Nat
deriving DecidableEq

/-- The default channel: an all-zero digest. -/
def defaultChannel : Sha256Channel := ⟨List.replicate 32 0⟩

/-- `Channel::mix_felts`: absorb each secure-field element in order,
digest = H(serialize(felt) ‖ digest). -/
def mixFelts (ch : Sha256Channel) (felts : List QM31) : Sha256Channel :=
  felts.foldl (fun c f => ⟨sha256 (qm31Bytes f ++ c.digest)⟩) ch

/-- `Channel::mix_nonce`: the nonce is serialized as 8 little-endian bytes padded
with 24 zero bytes, and digest = H(nonceBytes ‖ digest). -/
def mixNonce (ch : Sha256Channel) (nonce : Nat) : Sha256Channel :=
  ⟨sha256 ((leBytes 8 nonce ++ List.replicate 24 0) ++ ch.digest)⟩

/-- `Sha256MerkleChannel::mix_root` (vcs/sha256_merkle.rs):
digest = H(root ‖ digest). -/
def mixRoot (ch : Sha256Channel) (root : List Nat) : Sha256Channel :=
  ⟨sha256 (root ++ ch.digest)⟩

/-- `u32::from_le_bytes` of the first four bytes of a byte list. -/
def leU32 (bs : List Nat) : Nat :=
  bs.getD 0 0 + 256 * (bs.getD 1 0 + 256 * (bs.getD 2 0 + 256 * bs.getD 3 0))

/-- `Sha256Channel::extract_common`: little-endian u32 from the first 4 bytes,
clear the top bit with the 0x7fffffff mask, reduce modulo 2^31 - 1. -/
def extractCommon (bs : List Nat) : M31 := ((leU32 bs &&& 0x7fffffff) % (2 ^ 31 - 1) : Nat)

/-- `Channel::draw_felt`: extraction hash H(digest ‖ 0x00), ratchet
digest = H(digest), and assemble the QM31 from the four 4-byte windows at
offsets 0, 4, 8, 12 of the extraction hash. -/
def drawFelt (ch : Sha256Channel) : QM31 × Sha256Channel :=
  let extract := sha256 (ch.digest ++ [0])
  (⟨⟨extractCommon extract, extractCommon (extract.drop 4)⟩,
    ⟨extractCommon (extract.drop 8), extractCommon (extract.drop 12)⟩⟩,
   ⟨sha256 ch.digest⟩)

/-- `Channel::draw_felts`: n sequential draw_felt calls. -/
def drawFelts : Nat → Sha256Channel → List QM31 × Sha256Channel
  | 0, ch => ([], ch)
  | k + 1, ch =>
    let p := drawFelt ch
    let q := drawFelts k p.2
    (p.1 :: q.1, q.2)

/-- `Channel::draw_random_bytes`: same extraction hash H(digest ‖ 0x00) and the
same ratchet digest = H(digest) as draw_felt, returning the raw 32 bytes. -/
def drawRandomBytes (ch : Sha256Channel) : List Nat × Sha256Channel :=
  (sha256 (ch.digest ++ [0]), ⟨sha256 ch.digest⟩)

/-- `u8::leading_zeros` for a byte value. -/
def leadingZeros8 (b : Nat) : Nat :=
  if 128 ≤ b then 0 else if 64 ≤ b then 1 else if 32 ≤ b then 2 else if 16 ≤ b then 3
  else if 8 ≤ b then 4 else if 4 ≤ b then 5 else if 2 ≤ b then 6 else if 1 ≤ b then 7 else 8

/-- The byte scan of `Sha256Channel::trailing_zeros`: 8 bits per zero byte, plus
the leading zeros of the first nonzero byte. -/
def tzBytes : List Nat → Nat
  | [] => 0
  | b :: rest => if b = 0 then 8 + tzBytes rest else leadingZeros8 b

/-- `Sha256Channel::trailing_zeros`: scan the digest bytes from the last one
backwards (`iter().rev()`). -/
def trailingZeros (ch : Sha256Channel) : Nat := tzBytes ch.digest.reverse

/-- The nonce loop of `GrindOps<Sha256Channel>::grind` (backend/simd/grind.rs):
starting at `nonce`, mix each candidate into a clone of the channel and return
the first one whose digest has at least `powBits` trailing zero bits. The
unbounded Rust loop is given explicit fuel. -/
def grindAux (ch : Sha256Channel) (powBits : Nat) : Nat → Nat → Option Nat
  | _, 0 => none
  | nonce, fuel + 1 =>
    if powBits ≤ trailingZeros (mixNonce ch nonce) then some nonce
    else grindAux ch powBits (nonce + 1) fuel

/-! ## Channel transcripts (for the determinism contract) -/

/-- One operation of the channel interface. -/
inductive ChannelOp where
  | opMixFelts (fs : List QM31)
  | opMixNonce (x : Nat)
  | opMixRoot (r : List Nat)
  | opDrawFelt
  | opDrawFelts (k : Nat)
  | opDrawRandomBytes
deriving DecidableEq

/-- One observable output of the channel interface. -/
inductive ChannelOut where
  | outFelt (x : QM31)
  | outFelts (xs : List QM31)
  | outBytes (bs : List Nat)
deriving DecidableEq

/-- Run one channel operation, returning the new channel and its outputs. -/
def stepOp (ch : Sha256Channel) : ChannelOp → Sha256Channel × List ChannelOut
  | .opMixFelts fs => (mixFelts ch fs, [])
  | .opMixNonce x => (mixNonce ch x, [])
  | .opMixRoot r => (mixRoot ch r, [])
  | .opDrawFelt =>
    let p := drawFelt ch
    (p.2, [.outFelt p.1])
  | .opDrawFelts k =>
    let p := drawFelts k ch
    (p.2, [.outFelts p.1])
  | .opDrawRandomBytes =>
    let p := drawRandomBytes ch
    (p.2, [.outBytes p.1])

/-- Run an ordered sequence of channel operations. -/
def runOps : Sha256Channel → List ChannelOp → Sha256Channel × List ChannelOut
  | ch, [] => (ch, [])
  | ch, op :: ops =>
    let p := stepOp ch op
    let q := runOps p.1 ops
    (q.1, p.2 ++ q.2)

/-- The 8 bits of a byte, most significant first. -/
def bitsMSB (b : Nat) : List Nat :=
  [b / 128 % 2, b / 64 % 2, b / 32 % 2, b / 16 % 2, b / 8 % 2, b / 4 % 2, b / 2 % 2, b % 2]

/-- The digest's bit sequence in trailing-zeros scan order: bytes from the last
one upward, bits most-significant-first within each byte. -/
def bitStream (digest : List Nat) : List Nat := (digest.reverse.map bitsMSB).flatten

/-! ## Quotient accumulation (backend/cpu/quotients.rs)

`accumulate_row_quotients` consumes, per sample batch, the columns-and-values
list, the precomputed line coefficients, the batch coefficient
random_coeff^(batch size), and the per-row denominator inverses. The sampled
point itself is only used through those precomputed inputs, so batches are
embedded as their columns_and_values lists.
-/

/-- Truncating 4-way zip, mirroring the izip! iteration. -/
def zip4 {α β γ δ : Type} : List α → List β → List γ → List δ → List (α × β × γ × δ)
  | a :: as, b :: bs, c :: cs, d :: ds => (a, b, c, d) :: zip4 as bs cs ds
  | _, _, _, _ => []

/-- The inner numerator loop of the multi-column branch of
`accumulate_row_quotients`: fold over the batch's columns with
numerator = numerator * random_coeff + (value - (a * y + b)). -/
def batchNumerator (randomCoeff : QM31) (columns : List (List M31)) (domainY : M31)
    (columnsAndValues : List (Nat × QM31)) (lineCoeffs : List (CM31 × CM31)) (row : Nat) :
    QM31 :=
  (columnsAndValues.zip lineCoeffs).foldl
    (fun num p =>
      let value := (columns.getD p.1.1 []).getD row 0
      let linearTerm := p.2.1 * cm31OfM31 domainY + p.2.2
      num * randomCoeff + qm31OfCM31 (cm31OfM31 value - linearTerm))
    0

/-- The multi-column branch's contribution for one batch at one row:
numerator * denominator_inverse. -/
def multiContribution (randomCoeff : QM31) (columns : List (List M31)) (domainY : M31)
    (columnsAndValues : List (Nat × QM31)) (lineCoeffs : List (CM31 × CM31))
    (denominatorInverses : List CM31) (row : Nat) : QM31 :=
  batchNumerator randomCoeff columns domainY columnsAndValues lineCoeffs row *
    qm31OfCM31 (denominatorInverses.getD row 0)

/-- The single-column branch of `accumulate_row_quotients`:
(value - linear_term) * denominator_inverse computed in CM31, then lifted. -/
def singleContribution (columns : List (List M31)) (domainY : M31)
    (columnsAndValues : List (Nat × QM31)) (lineCoeffs : List (CM31 × CM31))
    (denominatorInverses : List CM31) (row : Nat) : QM31 :=
  let columnIndex := (columnsAndValues.getD 0 (0, 0)).1
  let ab := lineCoeffs.getD 0 (0, 0)
  let value := (columns.getD columnIndex []).getD row 0
  let linearTerm := ab.1 * cm31OfM31 domainY + ab.2
  qm31OfCM31 ((cm31OfM31 value - linearTerm) * denominatorInverses.getD row 0)

/-- `accumulate_row_quotients` (backend/cpu/quotients.rs): iterate the sample
batches in order, accumulator = accumulator * batch_coeff + contribution, with
the specialized branch for single-column batches. -/
def accumulateRowQuotients (sampleBatches : List (List (Nat × QM31)))
    (columns : List (List M31)) (lineCoeffs : List (List (CM31 × CM31)))
    (batchCoeffs : List QM31) (denominatorInverses : List (List CM31)) (row : Nat)
    (domainY : M31) (randomCoeff : QM31) : QM31 :=
  (zip4 sampleBatches lineCoeffs batchCoeffs denominatorInverses).foldl
    (fun acc q =>
      if q.1.length ≠ 1 then
        acc * q.2.2.1 + multiContribution randomCoeff columns domainY q.1 q.2.1 q.2.2.2 row
      else
        acc * q.2.2.1 + singleContribution columns domainY q.1 q.2.1 q.2.2.2 row)
    0

/-- The power-weighted sum t0 + alpha * t1 + alpha^2 * t2 + ... used to state the
claims about batch numerators. -/
def powSum (alpha : QM31) : List QM31 → QM31
  | [] => 0
  | t :: ts => t + alpha * powSum alpha ts

/-- The per-column numerator terms value_i - line_i(y) of one batch at one row. -/
def batchTerms (columns : List (List M31)) (domainY : M31)
    (columnsAndValues : List (Nat × QM31)) (lineCoeffs : List (CM31 × CM31)) (row : Nat) :
    List QM31 :=
  (columnsAndValues.zip lineCoeffs).map
    (fun p =>
      qm31OfCM31 (cm31OfM31 ((columns.getD p.1.1 []).getD row 0) -
        (p.2.1 * cm31OfM31 domainY + p.2.2)))

/-! ## Merkle commitment layers (backend/cpu/sha256.rs, backend/simd/sha256.rs) -/

/-- `MerkleOps<Sha256MerkleHasher> for CpuBackend::commit_on_layer`: hash each of
the 2^log_size nodes from its children in the previous layer (when present) and
the i-th value of each column attached at this layer. -/
def cpuCommitOnLayer (logSize : Nat) (prevLayer : Option (List (List Nat)))
    (columns : List (List M31)) : List (List Nat) :=
  (List.range (2 ^ logSize)).map (fun i =>
    hashNode (prevLayer.map (fun p => (p.getD (2 * i) [], p.getD (2 * i + 1) [])))
      (columns.map (fun c => c.getD i 0)))

/-- `MerkleOps<Sha256MerkleHasher> for SimdBackend::commit_on_layer`
(sequential path): identical node rule, with columns read through the
`BaseColumn::at` accessor, modelled as a function from indices to values. -/
def simdCommitOnLayer (logSize : Nat) (prevLayer : Option (List (List Nat)))
    (columns : List (Nat → M31)) : List (List Nat) :=
  (List.range (2 ^ logSize)).map (fun i =>
    hashNode (prevLayer.map (fun p => (p.getD (2 * i) [], p.getD (2 * i + 1) [])))
      (columns.map (fun c => c i)))

/-! ## The Merkle prover and verifier

Modelled from the spec: vcs/prover.rs and vcs/verifier.rs are not under src
(only their tests in vcs/sha256_merkle.rs are), so `commit`, `decommit` and
`verify` are modelled from section 4.1 of the spec: commit processes layers via
`commit_on_layer` from the largest log_size down to 0; a query at a fine layer
induces a query at every coarser covering node; witness hashes are the unknown
children siblings in canonical (layer, then index) order; opened values are
emitted per column in commit order over the layer's query frontier; verify
replays the same order against the root, with count checks before any
recomputation.

A column set is a list of (log_size, values) pairs in commit order; a query set
is a function from log_size to the sorted deduplicated queried row indices.
-/

/-- The largest column log_size, i.e. the log_size of the first committed layer. -/
def maxLogSize (ls : List Nat) : Nat := ls.foldr max 0

/-- The columns attached at log_size `s`, in commit order. -/
def colsAt (cols : List (Nat × List M31)) (s : Nat) : List (List M31) :=
  (cols.filter (fun p => p.1 == s)).map (fun p => p.2)

/-- Modelled from the spec: the hash of node `i` of the layer at log_size
`n - k`, where `n` is the first committed log_size. Fuel `k` counts layers
below the first one. -/
def treeNode (cols : List (Nat × List M31)) (n : Nat) : Nat → Nat → List Nat
  | 0, i => hashNode none ((colsAt cols n).map (fun c => c.getD i 0))
  | k + 1, i =>
    hashNode (some (treeNode cols n k (2 * i), treeNode cols n k (2 * i + 1)))
      ((colsAt cols (n - (k + 1))).map (fun c => c.getD i 0))

/-- Modelled from the spec: commit processes layers from log_size `L` down to 0,
each built by `commit_on_layer` from the previous one. -/
def commitDown (cols : List (Nat × List M31)) :
    Nat → Option (List (List Nat)) → List (List (List Nat))
  | 0, prev => [cpuCommitOnLayer 0 prev (colsAt cols 0)]
  | L + 1, prev =>
    let layer := cpuCommitOnLayer (L + 1) prev (colsAt cols (L + 1))
    layer :: commitDown cols L (some layer)

/-- The first committed log_size of a column set. -/
def nOf (cols : List (Nat × List M31)) : Nat := maxLogSize (cols.map (fun p => p.1))

/-- Modelled from the spec: the committed tree, as layers from log_size `nOf cols`
down to 0. -/
def commitLayers (cols : List (Nat × List M31)) : List (List (List Nat)) :=
  commitDown cols (nOf cols) none

/-- The committed layer at log_size `L`. -/
def layerAt (cols : List (Nat × List M31)) (L : Nat) : List (List Nat) :=
  (commitLayers cols).getD (nOf cols - L) []

/-- The root of the committed tree: the single hash of the log_size-0 layer. -/
def merkleRoot (cols : List (Nat × List M31)) : List Nat := (layerAt cols 0).getD 0 []

/-- Modelled from the spec: whether the node `i` of the layer at log_size `n - k`
is on the known-index frontier: it is queried at its own layer, or one of its
children at the finer layer is. Fuel `k` counts layers below the first one. -/
def neededK (q : Nat → List Nat) (n : Nat) : Nat → Nat → Bool
  | 0, i => decide (i ∈ q n)
  | k + 1, i =>
    decide (i ∈ q (n - (k + 1))) || neededK q n k (2 * i) || neededK q n k (2 * i + 1)

/-- The query frontier of the layer at log_size `n - k`, as the sorted
duplicate-free list of its known node indices. -/
def layerQueries (q : Nat → List Nat) (n k : Nat) : List Nat :=
  (List.range (2 ^ (n - k))).filter (fun i => neededK q n k i)

/-- The witness hashes contributed by node `i` of the layer at log_size `L`:
each child at log_size `L + 1` that is not itself on the frontier, read from the
committed tree, left child first. -/
def nodeWitnessChunk (cols : List (Nat × List M31)) (q : Nat → List Nat) (n L i : Nat) :
    List (List Nat) :=
  (if neededK q n (n - (L + 1)) (2 * i) then [] else [(layerAt cols (L + 1)).getD (2 * i) []]) ++
  (if neededK q n (n - (L + 1)) (2 * i + 1) then []
   else [(layerAt cols (L + 1)).getD (2 * i + 1) []])

/-- The witness hashes consumed while recomputing the layer at log_size `L`, in
index order; the first committed layer has no children and contributes none. -/
def layerWitnessChunk (cols : List (Nat × List M31)) (q : Nat → List Nat) (n L : Nat) :
    List (List Nat) :=
  if n ≤ L then [] else ((layerQueries q n (n - L)).map (nodeWitnessChunk cols q n L)).flatten

/-- The witness for the layers from log_size `L` down to 0, finest first. -/
def witnessDown (cols : List (Nat × List M31)) (q : Nat → List Nat) (n : Nat) :
    Nat → List (List Nat)
  | 0 => layerWitnessChunk cols q n 0
  | L + 1 => layerWitnessChunk cols q n (L + 1) ++ witnessDown cols q n L

/-- Modelled from the spec: the decommitment witness for a query set, in
canonical (layer, then index) order. -/
def decommitWitness (cols : List (Nat × List M31)) (q : Nat → List Nat) : List (List Nat) :=
  witnessDown cols q (nOf cols) (nOf cols)

/-- Modelled from the spec: the opened values, one list per column in commit
order, covering the query frontier of the column's layer in row order. -/
def decommitValues (cols : List (Nat × List M31)) (q : Nat → List Nat) : List (List M31) :=
  cols.map (fun p => (layerQueries q (nOf cols) (nOf cols - p.1)).map (fun i => p.2.getD i 0))

/-- The verification errors (vcs/verifier.rs, via the tests in
vcs/sha256_merkle.rs). -/
inductive MerkleVerificationError where
  | rootMismatch
  | witnessTooShort
  | witnessTooLong
  | columnValuesTooShort
  | columnValuesTooLong
deriving DecidableEq

/-- The number of witness hashes node `i` of the layer at log_size `L` requires:
one per child off the frontier. Computable from the query set alone. -/
def expectedNodeWitness (q : Nat → List Nat) (n L i : Nat) : Nat :=
  (if neededK q n (n - (L + 1)) (2 * i) then 0 else 1) +
  (if neededK q n (n - (L + 1)) (2 * i + 1) then 0 else 1)

/-- The number of witness hashes consumed at the layer at log_size `L`. -/
def expectedLayerWitness (q : Nat → List Nat) (n L : Nat) : Nat :=
  if n ≤ L then 0 else ((layerQueries q n (n - L)).map (expectedNodeWitness q n L)).sum

/-- The number of witness hashes consumed from log_size `L` down to 0. -/
def expectedWitnessDown (q : Nat → List Nat) (n : Nat) : Nat → Nat
  | 0 => expectedLayerWitness q n 0
  | L + 1 => expectedLayerWitness q n (L + 1) + expectedWitnessDown q n L

/-- The witness length this query set requires, per the spec a deterministic
function of the query set alone. -/
def expectedWitnessLength (q : Nat → List Nat) (n : Nat) : Nat :=
  expectedWitnessDown q n n

/-- The opened-value lists of the columns attached at log_size `L`, in commit
order, as the verifier reconstructs them from the column log sizes. -/
def valsForLayer (colLogSizes : List Nat) (values : List (List M31)) (L : Nat) :
    List (List M31) :=
  ((colLogSizes.zip values).filter (fun p => p.1 == L)).map (fun p => p.2)

/-- The attached column values per frontier node (rank `r` of the frontier gets
the `r`-th opened value of each column attached at log_size `L`). -/
def rowsForLayer (q : Nat → List Nat) (n : Nat) (colLogSizes : List Nat)
    (values : List (List M31)) (L : Nat) : List (List M31) :=
  (List.range (layerQueries q n (n - L)).length).map
    (fun r => (valsForLayer colLogSizes values L).map (fun v => v.getD r 0))

/-- Resolve one child hash: from the previous layer's recomputed frontier when
the child is on it, otherwise by consuming the next witness hash. -/
def getChild (assoc : List (Nat × List Nat)) (witness : List (List Nat)) (c : Nat) :
    List Nat × List (List Nat) :=
  match assoc.lookup c with
  | some h => (h, witness)
  | none => (witness.headD [], witness.tail)

/-- Recompute the hashes of one layer's frontier nodes in index order, consuming
witness hashes for unknown children. -/
def verifyLayerNodes (prevAssoc : Option (List (Nat × List Nat))) :
    List (Nat × List M31) → List (List Nat) → List (List Nat) × List (List Nat)
  | [], w => ([], w)
  | nv :: rest, w =>
    match prevAssoc with
    | none =>
      let p := verifyLayerNodes none rest w
      (hashNode none nv.2 :: p.1, p.2)
    | some assoc =>
      let lc := getChild assoc w (2 * nv.1)
      let rc := getChild assoc lc.2 (2 * nv.1 + 1)
      let p := verifyLayerNodes (some assoc) rest rc.2
      (hashNode (some (lc.1, rc.1)) nv.2 :: p.1, p.2)

/-- Recompute the frontier hashes of the layers from log_size `L` down to 0,
bottom-up, threading the witness stream; returns the log_size-0 frontier
associations and the unconsumed witness. -/
def verifyDown (q : Nat → List Nat) (n : Nat) (colLogSizes : List Nat)
    (values : List (List M31)) :
    Nat → Option (List (Nat × List Nat)) → List (List Nat) →
      List (Nat × List Nat) × List (List Nat)
  | 0, prev, w =>
    let tq := layerQueries q n n
    let p := verifyLayerNodes prev (tq.zip (rowsForLayer q n colLogSizes values 0)) w
    (tq.zip p.1, p.2)
  | L + 1, prev, w =>
    let tq := layerQueries q n (n - (L + 1))
    let p := verifyLayerNodes prev (tq.zip (rowsForLayer q n colLogSizes values (L + 1))) w
    verifyDown q n colLogSizes values L (some (tq.zip p.1)) p.2

/-- Modelled from the spec: `verify` checks the witness and opened-value counts
first, then recomputes the root bottom-up in the prover's canonical order and
compares it with the stored root. -/
def merkleVerify (root : List Nat) (colLogSizes : List Nat) (q : Nat → List Nat)
    (values : List (List M31)) (witness : List (List Nat)) :
    Except MerkleVerificationError Unit :=
  let n := maxLogSize colLogSizes
  if (colLogSizes.zip values).any
      (fun p => p.2.length < (layerQueries q n (n - p.1)).length) then
    .error .columnValuesTooShort
  else if (colLogSizes.zip values).any
      (fun p => (layerQueries q n (n - p.1)).length < p.2.length) then
    .error .columnValuesTooLong
  else if witness.length < expectedWitnessLength q n then .error .witnessTooShort
  else if expectedWitnessLength q n < witness.length then .error .witnessTooLong
  else
    let p := verifyDown q n colLogSizes values n none witness
    match p.1 with
    | [] => .ok ()
    | h :: _ => if h.2 = root then .ok () else .error .rootMismatch

/-! ## Spec-side forms used in theorem statements -/

/-- The chained column hash as the spec words it: fold the attached values in
reverse attach order (last-attached value hashed first, then each next
hash = H(value ‖ previousHash)). -/
def columnHashSpec (vals : List M31) : List Nat :=
  vals.foldr (fun v h => sha256 (m31Bytes v ++ h)) []

/-- The 4-byte window of a byte list at offset 4*j. -/
def window4 (bs : List Nat) (j : Nat) : List Nat := (bs.drop (4 * j)).take 4

/-- The spec-side reduction of one 4-byte window to a base-field value:
little-endian u32, top bit cleared (reduction mod 2^31), then reduction
modulo 2^31 - 1. -/
def specExtract (bs : List Nat) (j : Nat) : M31 :=
  ((leU32 (window4 bs j) % 2 ^ 31) % (2 ^ 31 - 1) : Nat)

instance : DecidableEq (Except MerkleVerificationError Unit) := fun a b =>
  match a, b with
  | .ok (), .ok () => isTrue rfl
  | .ok (), .error _ => isFalse (fun h => Except.noConfusion h)
  | .error _, .ok () => isFalse (fun h => Except.noConfusion h)
  | .error e, .error f =>
    if h : e = f then isTrue (by rw [h]) else isFalse (fun hc => h (by injection hc))

/-! ## Algebra lemmas for the field tower -/

/-- The SHA-256 implementation matches the repository's own test vector for the
one-byte message 97 (vcs/sha256_hash.rs, single_hash_test). -/
theorem sha256_vector_single_byte : sha256 [97] =
    [202, 151, 129, 18, 202, 27, 189, 202, 250, 194, 49, 179, 154, 35, 220, 77,
     167, 134, 239, 248, 20, 124, 78, 114, 185, 128, 119, 133, 175, 238, 72, 187] := by decide

/-- The SHA-256 implementation matches the standard empty-message digest. -/
theorem sha256_vector_empty : sha256 [] =
    [227, 176, 196, 66, 152, 252, 28, 20, 154, 251, 244, 200, 153, 111, 185, 36,
     39, 174, 65, 228, 100, 155, 147, 76, 164, 149, 153, 27, 120, 82, 184, 85] := by decide

theorem cm31_zero_def : (0 : CM31) = ⟨0, 0⟩ := rfl

theorem cm31_add_def (x y : CM31) : x + y = ⟨x.re + y.re, x.im + y.im⟩ := rfl

theorem cm31_sub_def (x y : CM31) : x - y = ⟨x.re - y.re, x.im - y.im⟩ := rfl

theorem cm31_mul_def (x y : CM31) :
    x * y = ⟨x.re * y.re - x.im * y.im, x.re * y.im + x.im * y.re⟩ := rfl

theorem qm31_zero_def : (0 : QM31) = ⟨0, 0⟩ := rfl

theorem qm31_add_def (x y : QM31) : x + y = ⟨x.c0 + y.c0, x.c1 + y.c1⟩ := rfl

theorem qm31_mul_def (x y : QM31) :
    x * y = ⟨x.c0 * y.c0 + rQM31 * (x.c1 * y.c1), x.c0 * y.c1 + x.c1 * y.c0⟩ := rfl

theorem qm31_add_comm (x y : QM31) : x + y = y + x := by
  obtain ⟨⟨a, b⟩, ⟨c, d⟩⟩ := x
  obtain ⟨⟨e, f⟩, ⟨g, h⟩⟩ := y
  simp only [qm31_add_def, cm31_add_def, QM31.mk.injEq, CM31.mk.injEq]
  refine ⟨⟨?_, ?_⟩, ?_, ?_⟩ <;> ring

theorem qm31_mul_comm (x y : QM31) : x * y = y * x := by
  obtain ⟨⟨a, b⟩, ⟨c, d⟩⟩ := x
  obtain ⟨⟨e, f⟩, ⟨g, h⟩⟩ := y
  simp only [qm31_mul_def, cm31_mul_def, cm31_add_def, cm31_sub_def, rQM31, QM31.mk.injEq,
    CM31.mk.injEq]
  refine ⟨⟨?_, ?_⟩, ?_, ?_⟩ <;> ring

theorem qm31_zero_mul (x : QM31) : 0 * x = 0 := by
  obtain ⟨⟨a, b⟩, ⟨c, d⟩⟩ := x
  simp only [qm31_zero_def, qm31_mul_def, cm31_zero_def, cm31_mul_def, cm31_add_def, cm31_sub_def,
    rQM31, QM31.mk.injEq, CM31.mk.injEq]
  refine ⟨⟨?_, ?_⟩, ?_, ?_⟩ <;> ring

theorem qm31_zero_add (x : QM31) : 0 + x = x := by
  obtain ⟨⟨a, b⟩, ⟨c, d⟩⟩ := x
  simp only [qm31_zero_def, qm31_add_def, cm31_zero_def, cm31_add_def, QM31.mk.injEq,
    CM31.mk.injEq]
  refine ⟨⟨?_, ?_⟩, ?_, ?_⟩ <;> ring

theorem qm31OfCM31_mul (x y : CM31) :
    qm31OfCM31 (x * y) = qm31OfCM31 x * qm31OfCM31 y := by
  obtain ⟨a, b⟩ := x
  obtain ⟨c, d⟩ := y
  simp only [qm31OfCM31, qm31_mul_def, cm31_zero_def, cm31_mul_def, cm31_add_def, cm31_sub_def,
    rQM31, QM31.mk.injEq, CM31.mk.injEq]
  refine ⟨⟨?_, ?_⟩, ?_, ?_⟩ <;> ring

/-! ## The hash_node four-case rule (claim C1) -/

theorem columnHashCode_eq_spec (vals : List M31) (h : vals ≠ []) :
    columnHashCode vals = some (columnHashSpec vals) := by
  induction vals using List.reverseRecOn with
  | nil => simp at h
  | append_singleton l x _ =>
    simp only [columnHashCode, List.getLast?_concat, List.dropLast_concat, columnHashSpec,
      List.foldr_append, List.foldr_cons, List.foldr_nil, List.append_nil]

/-- C1 (counterexample): with a single attached value and no children, hash_node
returns the hash of the column hash, not the column hash itself. -/
theorem hash_node_columns_only_not_columnHash :
    hashNode none [(5 : M31)] ≠ columnHashSpec [(5 : M31)] := by decide

/-- C1 (amended): hash_node follows the four-case rule on children presence and
attached values, where the columns-only case yields hash(columnHash) (one more
hash application on top of the chained column hash), the chained column hash
folds the values in reverse attach order, and the empty case is the hash of the
empty byte string. -/
theorem hash_node_four_cases (chd : Option (List Nat × List Nat)) (vals : List M31) :
    hashNode chd vals =
      match chd, vals with
      | some ch, _ :: _ => sha256 (ch.1 ++ columnHashSpec vals ++ ch.2)
      | some ch, [] => sha256 (ch.1 ++ ch.2)
      | none, _ :: _ => sha256 (columnHashSpec vals)
      | none, [] => sha256 [] := by
  rcases chd with _ | ⟨l, r⟩ <;> rcases vals with _ | ⟨v, vs⟩
  · rfl
  · have h := columnHashCode_eq_spec (v :: vs) (by simp)
    simp [hashNode, h]
  · rfl
  · have h := columnHashCode_eq_spec (v :: vs) (by simp)
    simp [hashNode, h]

/-! ## Batch numerator weighting (claims C4 and C8) -/

theorem batchNumerator_eq_foldl (alpha : QM31) (columns : List (List M31)) (y : M31)
    (cav : List (Nat × QM31)) (coeffs : List (CM31 × CM31)) (row : Nat) :
    batchNumerator alpha columns y cav coeffs row =
      (batchTerms columns y cav coeffs row).foldl (fun n t => n * alpha + t) 0 := by
  simp only [batchNumerator, batchTerms, List.foldl_map]

theorem foldl_horner_powSum (alpha : QM31) (l : List QM31) :
    l.foldl (fun n t => n * alpha + t) 0 = powSum alpha l.reverse := by
  induction l using List.reverseRecOn with
  | nil => rfl
  | append_singleton l t ih =>
    rw [List.foldl_append]
    simp only [List.foldl_cons, List.foldl_nil, List.reverse_append, List.reverse_cons,
      List.reverse_nil, List.nil_append, List.singleton_append]
    rw [powSum, ← ih, qm31_add_comm, qm31_mul_comm]

/-- C4 (counterexample): in a two-column batch the code's numerator is not
the claimed increasing-powers sum t0 + alpha * t1 over the batch terms. -/
theorem accumulate_not_increasing_powers :
    accumulateRowQuotients [[(0, 0), (1, 0)]] [[1], [2]] [[(0, 0), (0, 0)]] [1] [[1]] 0 0
        (⟨⟨0, 1⟩, 0⟩ : QM31) ≠
      powSum (⟨⟨0, 1⟩, 0⟩ : QM31)
        (batchTerms [[1], [2]] 0 [(0, 0), (1, 0)] [(0, 0), (0, 0)] 0) := by decide

/-- C4 (amended): within a batch the numerator weights the columns by
decreasing powers of alpha: it is the power-weighted sum of the reversed term
list, so the i-th of k columns carries alpha^(k-1-i) and earlier columns in the
batch are weighted by higher powers; the line coefficients themselves are not
pre-scaled. -/
theorem batch_numerator_reverse_powers (alpha : QM31) (columns : List (List M31)) (y : M31)
    (cav : List (Nat × QM31)) (coeffs : List (CM31 × CM31)) (row : Nat) :
    batchNumerator alpha columns y cav coeffs row =
      powSum alpha (batchTerms columns y cav coeffs row).reverse := by
  rw [batchNumerator_eq_foldl, foldl_horner_powSum]

/-- C8: for a single-column batch, the specialized base-field fast path equals
the general multi-column formula instantiated with that one column, for every
random coefficient alpha. -/
theorem single_column_path_agrees (alpha : QM31) (columns : List (List M31)) (y : M31)
    (cv : Nat × QM31) (ab : CM31 × CM31) (dinv : List CM31) (row : Nat) :
    singleContribution columns y [cv] [ab] dinv row =
      multiContribution alpha columns y [cv] [ab] dinv row := by
  obtain ⟨ci, v⟩ := cv
  obtain ⟨a, b⟩ := ab
  simp only [singleContribution, multiContribution, batchNumerator, List.zip_cons_cons,
    List.zip_nil_right, List.foldl_cons, List.foldl_nil, List.getD_cons_zero]
  rw [qm31_zero_mul, qm31_zero_add, qm31OfCM31_mul]

/-! ## Channel extraction (claims C5 and C10) -/

theorem leU32_take4 (l : List Nat) : leU32 (l.take 4) = leU32 l := by
  rcases l with _ | ⟨a, _ | ⟨b, _ | ⟨c, _ | ⟨d, l⟩⟩⟩⟩ <;> rfl

theorem specExtract_eq (bs : List Nat) (j : Nat) :
    specExtract bs j = extractCommon (bs.drop (4 * j)) := by
  unfold specExtract window4 extractCommon
  rw [leU32_take4]
  have hm : (0x7fffffff : Nat) = 2 ^ 31 - 1 := by norm_num
  rw [hm, Nat.and_pow_two_sub_one_eq_mod]

/-- C5: draw_felt computes the extraction hash H(digest ‖ 0x00), ratchets the
digest to H(digest) independently of the separator byte, and assembles the
secure-field element from the four disjoint 4-byte windows of the extraction
hash, each reduced by clearing the top bit (mod 2^31) and then reducing modulo
2^31 - 1. -/
theorem draw_felt_extraction_spec (ch : Sha256Channel) :
    drawFelt ch =
      (⟨⟨specExtract (sha256 (ch.digest ++ [0])) 0, specExtract (sha256 (ch.digest ++ [0])) 1⟩,
        ⟨specExtract (sha256 (ch.digest ++ [0])) 2, specExtract (sha256 (ch.digest ++ [0])) 3⟩⟩,
       ⟨sha256 ch.digest⟩) := by
  rw [specExtract_eq, specExtract_eq, specExtract_eq, specExtract_eq]
  norm_num [List.drop_zero]
  rfl

theorem getD_take_of_lt {x : List Nat} {m j : Nat} (h : j < m) :
    (x.take m).getD j 0 = x.getD j 0 := by
  rw [List.getD_eq_getElem?_getD, List.getD_eq_getElem?_getD, List.getElem?_take, if_pos h]

theorem extractCommon_take {m : Nat} (h : 4 ≤ m) (x : List Nat) :
    extractCommon (x.take m) = extractCommon x := by
  unfold extractCommon leU32
  rw [getD_take_of_lt (by omega), getD_take_of_lt (by omega), getD_take_of_lt (by omega),
    getD_take_of_lt (by omega)]

/-- C10: draw_felt and draw_random_bytes share one extraction mechanism with no
domain separation: draw_random_bytes returns exactly the extraction hash
H(digest ‖ 0x00), both leave the channel in the same post-state, and the
secure-field element draw_felt returns is assembled exactly from the first 16
bytes of the 32 bytes draw_random_bytes would return from the same state. -/
theorem draw_shared_extraction (ch : Sha256Channel) :
    (drawRandomBytes ch).1 = sha256 (ch.digest ++ [0]) ∧
    (drawFelt ch).2 = (drawRandomBytes ch).2 ∧
    (drawFelt ch).1 =
      ⟨⟨extractCommon ((drawRandomBytes ch).1.take 16),
        extractCommon (((drawRandomBytes ch).1.take 16).drop 4)⟩,
       ⟨extractCommon (((drawRandomBytes ch).1.take 16).drop 8),
        extractCommon (((drawRandomBytes ch).1.take 16).drop 12)⟩⟩ := by
  refine ⟨rfl, rfl, ?_⟩
  simp only [drawRandomBytes, drawFelt]
  rw [List.drop_take, List.drop_take, List.drop_take]
  rw [extractCommon_take (show (4 : Nat) ≤ 16 by norm_num),
    extractCommon_take (show (4 : Nat) ≤ 16 - 4 by norm_num),
    extractCommon_take (show (4 : Nat) ≤ 16 - 8 by norm_num),
    extractCommon_take (show (4 : Nat) ≤ 16 - 12 by norm_num)]

/-! ## Trailing zeros as a bit count (claim C7) -/

theorem bits_takeWhile_eq :
    ∀ b < 256, ((bitsMSB b).takeWhile (fun x => x == 0)).length = leadingZeros8 b := by decide

theorem bits_takeWhile_lt :
    ∀ b < 256, b ≠ 0 → ((bitsMSB b).takeWhile (fun x => x == 0)).length < 8 := by decide

theorem tzBytes_eq_bits : ∀ (l : List Nat), (∀ b ∈ l, b < 256) →
    tzBytes l = (((l.map bitsMSB).flatten).takeWhile (fun x => x == 0)).length := by
  intro l
  induction l with
  | nil => intro _; rfl
  | cons b rest ih =>
    intro h
    have hb : b < 256 := h b (by simp)
    have hrest : ∀ x ∈ rest, x < 256 := fun x hx => h x (by simp [hx])
    simp only [List.map_cons, List.flatten_cons]
    rw [List.takeWhile_append]
    by_cases hb0 : b = 0
    · subst hb0
      rw [if_pos (by decide)]
      simp only [tzBytes, if_pos rfl, List.length_append]
      rw [ih hrest]
      rfl
    · rw [if_neg ?_]
      · simp only [tzBytes, if_neg hb0]
        exact (bits_takeWhile_eq b hb).symm
      · have hlt := bits_takeWhile_lt b hb hb0
        intro hcontra
        rw [hcontra] at hlt
        simp [bitsMSB] at hlt

/-- C7: trailing_zeros counts the zero bits of the digest starting from its
last byte and moving upward, most-significant-bit-first within a byte,
stopping at the first set bit: it is the length of the zero prefix of the
digest's scan-order bit stream. -/
theorem trailing_zeros_counts_zero_bits (d : List Nat) (h : ∀ b ∈ d, b < 256) :
    trailingZeros ⟨d⟩ = ((bitStream d).takeWhile (fun x => x == 0)).length := by
  unfold trailingZeros bitStream
  exact tzBytes_eq_bits d.reverse (fun b hb => h b (List.mem_reverse.mp hb))

/-- C7 witness: the characterization evaluated on a concrete digest. -/
theorem trailing_zeros_counts_zero_bits_witness :
    (∀ b ∈ List.replicate 30 7 ++ [64, 0], b < 256) ∧
    trailingZeros ⟨List.replicate 30 7 ++ [64, 0]⟩ =
      ((bitStream (List.replicate 30 7 ++ [64, 0])).takeWhile (fun x => x == 0)).length :=
  ⟨by decide, trailing_zeros_counts_zero_bits _ (by decide)⟩

/-! ## Grind returns the least satisfying nonce (claim C3) -/

theorem grindAux_finds (ch : Sha256Channel) (b : Nat) :
    ∀ (fuel start j : Nat), j < fuel → b ≤ trailingZeros (mixNonce ch (start + j)) →
      ∃ m, grindAux ch b start fuel = some m ∧ b ≤ trailingZeros (mixNonce ch m) ∧
        start ≤ m ∧ m ≤ start + j ∧
        ∀ k, start ≤ k → k < m → trailingZeros (mixNonce ch k) < b := by
  intro fuel
  induction fuel with
  | zero => intro start j hj; exact absurd hj (Nat.not_lt_zero j)
  | succ fuel ih =>
    intro start j hj hsat
    by_cases hs : b ≤ trailingZeros (mixNonce ch start)
    · refine ⟨start, ?_, hs, le_refl _, Nat.le_add_right _ _, ?_⟩
      · simp [grindAux, hs]
      · intro k hk1 hk2; omega
    · have hj0 : j ≠ 0 := by
        intro h0
        subst h0
        rw [Nat.add_zero] at hsat
        exact hs hsat
      obtain ⟨j', rfl⟩ : ∃ j', j = j' + 1 := ⟨j - 1, by omega⟩
      have hsat' : b ≤ trailingZeros (mixNonce ch (start + 1 + j')) := by
        have harr : start + 1 + j' = start + (j' + 1) := by omega
        rw [harr]
        exact hsat
      obtain ⟨m, hg, hm, hm1, hm2, hmin⟩ := ih (start + 1) j' (by omega) hsat'
      refine ⟨m, ?_, hm, by omega, by omega, ?_⟩
      · simp only [grindAux, if_neg hs]
        exact hg
      · intro k hk1 hk2
        rcases Nat.eq_or_lt_of_le hk1 with heq | hlt
        · rw [← heq]
          exact Nat.lt_of_not_le hs
        · exact hmin k (by omega) hk2

/-- C3: whenever some nonce satisfies the proof-of-work condition, the grind
loop (run with enough fuel) terminates with the smallest nonce in the
ascending scan 0, 1, 2, ... whose mixed digest has at least powBits trailing
zero bits; the input channel is passed by value, so the caller's channel state
is unchanged and repeated calls agree. -/
theorem grind_returns_least_nonce (ch : Sha256Channel) (powBits nonce : Nat)
    (h : powBits ≤ trailingZeros (mixNonce ch nonce)) :
    ∃ m, grindAux ch powBits 0 (nonce + 1) = some m ∧
      powBits ≤ trailingZeros (mixNonce ch m) ∧ m ≤ nonce ∧
      ∀ k < m, trailingZeros (mixNonce ch k) < powBits := by
  obtain ⟨m, hg, hm, _, hm2, hmin⟩ :=
    grindAux_finds ch powBits (nonce + 1) 0 nonce (by omega) (by simpa using h)
  exact ⟨m, hg, hm, by omega, fun k hk => hmin k (Nat.zero_le k) hk⟩

/-- C3 witness: with powBits = 0 every nonce satisfies the condition, and grind
returns nonce 0. -/
theorem grind_returns_least_nonce_witness :
    0 ≤ trailingZeros (mixNonce defaultChannel 0) ∧
    ∃ m, grindAux defaultChannel 0 0 1 = some m ∧
      0 ≤ trailingZeros (mixNonce defaultChannel m) ∧ m ≤ 0 ∧
      ∀ k < m, trailingZeros (mixNonce defaultChannel k) < 0 :=
  ⟨Nat.zero_le _, grind_returns_least_nonce defaultChannel 0 0 (Nat.zero_le _)⟩

/-! ## Channel determinism (claim C9) -/

/-- C9: the channel's observable behavior is a pure function of its digest and
the ordered operation sequence: two channels with equal digests produce
identical digests and identical draw outputs under any identical sequence of
mix and draw calls. -/
theorem channel_deterministic (c1 c2 : Sha256Channel) (ops : List ChannelOp)
    (h : c1.digest = c2.digest) : runOps c1 ops = runOps c2 ops := by
  obtain ⟨d1⟩ := c1
  obtain ⟨d2⟩ := c2
  have hd : d1 = d2 := h
  subst hd
  rfl

/-- C9 witness: two distinctly constructed channels with the same digest agree
on a concrete transcript. -/
theorem channel_deterministic_witness :
    runOps defaultChannel
        [ChannelOp.opDrawFelt, ChannelOp.opMixNonce 3, ChannelOp.opDrawRandomBytes] =
      runOps ⟨List.replicate 32 0⟩
        [ChannelOp.opDrawFelt, ChannelOp.opMixNonce 3, ChannelOp.opDrawRandomBytes] :=
  channel_deterministic defaultChannel ⟨List.replicate 32 0⟩ _ rfl

/-! ## Backend agreement on commit_on_layer (claim C6) -/

theorem rangeMap_getD {α : Type} (f : Nat → α) (m i : Nat) (d : α) (h : i < m) :
    ((List.range m).map f).getD i d = f i := by
  simp [List.getD_eq_getElem?_getD, List.getElem?_map, List.getElem?_range, h]

theorem getD_eq_getElem_of_lt {α : Type} (l : List α) (j : Nat) (d : α) (h : j < l.length) :
    l.getD j d = l[j] := by
  rw [List.getD_eq_getElem?_getD, List.getElem?_eq_getElem h, Option.getD_some]

/-- C6: the scalar and vectorized commit_on_layer agree bit for bit: when the
simd columns read, position by position, the same values as the cpu columns,
both backends return the same layer of 2^log_size hashes, and node i is
hash_node of the children pair (prev[2i], prev[2i+1]) and the i-th value of
each attached column. -/
theorem commit_on_layer_backends_agree (logSize : Nat) (prev : Option (List (List Nat)))
    (ccols : List (List M31)) (scols : List (Nat → M31))
    (hlen : scols.length = ccols.length)
    (hagree : ∀ j < ccols.length, ∀ i < 2 ^ logSize,
      (scols.getD j (fun _ => 0)) i = (ccols.getD j []).getD i 0) :
    simdCommitOnLayer logSize prev scols = cpuCommitOnLayer logSize prev ccols ∧
    (cpuCommitOnLayer logSize prev ccols).length = 2 ^ logSize ∧
    ∀ i < 2 ^ logSize, (cpuCommitOnLayer logSize prev ccols).getD i [] =
      hashNode (prev.map (fun p => (p.getD (2 * i) [], p.getD (2 * i + 1) [])))
        (ccols.map (fun c => c.getD i 0)) := by
  refine ⟨?_, by simp [cpuCommitOnLayer], fun i hi => rangeMap_getD _ _ i _ hi⟩
  unfold simdCommitOnLayer cpuCommitOnLayer
  apply List.map_congr_left
  intro i hi
  rw [List.mem_range] at hi
  congr 1
  apply List.ext_getElem
  · simp [hlen]
  · intro j h1 h2
    simp only [List.getElem_map]
    have hj : j < ccols.length := by simpa using h2
    have hj' : j < scols.length := by rw [hlen]; exact hj
    have hha := hagree j hj i hi
    rw [getD_eq_getElem_of_lt scols j _ hj', getD_eq_getElem_of_lt ccols j _ hj] at hha
    exact hha

/-- C6 witness: the agreement evaluated on one concrete layer. -/
theorem commit_on_layer_backends_agree_witness :
    simdCommitOnLayer 1 none [fun i => (([3, 5] : List M31)).getD i 0] =
      cpuCommitOnLayer 1 none [[3, 5]] ∧
    (cpuCommitOnLayer 1 none [[3, 5]]).length = 2 ^ 1 ∧
    ∀ i < 2 ^ 1, (cpuCommitOnLayer 1 none [[3, 5]]).getD i [] =
      hashNode ((none : Option (List (List Nat))).map
          (fun p => (p.getD (2 * i) [], p.getD (2 * i + 1) [])))
        (([[3, 5]] : List (List M31)).map (fun c => c.getD i 0)) :=
  commit_on_layer_backends_agree 1 none [[3, 5]]
    [fun i => (([3, 5] : List M31)).getD i 0] rfl (by decide)

/-! ## The Merkle round-trip (claim C2): bridge from commit layers to node hashes -/

theorem zip_map_self {α β : Type} (l : List α) (f : α → β) :
    l.zip (l.map f) = l.map (fun a => (a, f a)) := by
  induction l with
  | nil => rfl
  | cons a l ih => simp [ih]

theorem commitOnLayer_top (cols : List (Nat × List M31)) (n : Nat) :
    cpuCommitOnLayer n none (colsAt cols n) =
      (List.range (2 ^ n)).map (treeNode cols n 0) := by
  unfold cpuCommitOnLayer
  apply List.map_congr_left
  intro i _
  rfl

theorem commitOnLayer_step (cols : List (Nat × List M31)) (n L : Nat) (hL : L < n) :
    cpuCommitOnLayer L
        (some ((List.range (2 ^ (L + 1))).map (treeNode cols n (n - (L + 1)))))
        (colsAt cols L) =
      (List.range (2 ^ L)).map (treeNode cols n (n - L)) := by
  unfold cpuCommitOnLayer
  apply List.map_congr_left
  intro i hi
  rw [List.mem_range] at hi
  have h2 : 2 ^ (L + 1) = 2 ^ L * 2 := pow_succ 2 L
  simp only [Option.map_some']
  rw [rangeMap_getD _ _ _ _ (by omega), rangeMap_getD _ _ _ _ (by omega)]
  have harr : n - L = (n - (L + 1)) + 1 := by omega
  rw [harr]
  simp only [treeNode]
  have harr2 : n - (n - (L + 1) + 1) = L := by omega
  rw [harr2]

theorem commitDown_getD (cols : List (Nat × List M31)) (n : Nat) : ∀ (L : Nat), L ≤ n →
    ∀ (prev : Option (List (List Nat))),
      ((L = n ∧ prev = none) ∨
        (L < n ∧ prev = some ((List.range (2 ^ (L + 1))).map (treeNode cols n (n - (L + 1)))))) →
      ∀ j, j ≤ L → (commitDown cols L prev).getD (L - j) [] =
        (List.range (2 ^ j)).map (treeNode cols n (n - j)) := by
  intro L
  induction L with
  | zero =>
    intro _ prev hprev j hj
    have hj0 : j = 0 := Nat.le_zero.mp hj
    subst hj0
    rcases hprev with ⟨hn, hpnone⟩ | ⟨hn, hpsome⟩
    · subst hpnone
      simp only [commitDown, Nat.sub_self, List.getD_cons_zero]
      rw [← hn, Nat.sub_self]
      exact commitOnLayer_top cols 0
    · subst hpsome
      simp only [commitDown, Nat.sub_self, List.getD_cons_zero, Nat.sub_zero]
      exact commitOnLayer_step cols n 0 hn
  | succ L ih =>
    intro hLn prev hprev j hj
    have hlayer : cpuCommitOnLayer (L + 1) prev (colsAt cols (L + 1)) =
        (List.range (2 ^ (L + 1))).map (treeNode cols n (n - (L + 1))) := by
      rcases hprev with ⟨hn, hpnone⟩ | ⟨hn, hpsome⟩
      · subst hpnone
        rw [hn, Nat.sub_self]
        exact commitOnLayer_top cols n
      · subst hpsome
        exact commitOnLayer_step cols n (L + 1) hn
    rcases Nat.eq_or_lt_of_le hj with hjeq | hjlt
    · subst hjeq
      simp only [commitDown, Nat.sub_self, List.getD_cons_zero]
      exact hlayer
    · have hjL : j ≤ L := by omega
      have hsub : L + 1 - j = (L - j) + 1 := by omega
      simp only [commitDown, hsub, List.getD_cons_succ]
      exact ih (by omega) (some (cpuCommitOnLayer (L + 1) prev (colsAt cols (L + 1))))
        (Or.inr ⟨by omega, by rw [hlayer]⟩) j hjL

theorem layerAt_eq (cols : List (Nat × List M31)) (L : Nat) (hL : L ≤ nOf cols) :
    layerAt cols L = (List.range (2 ^ L)).map (treeNode cols (nOf cols) (nOf cols - L)) := by
  unfold layerAt commitLayers
  exact commitDown_getD cols (nOf cols) (nOf cols) (le_refl _) none (Or.inl ⟨rfl, rfl⟩) L hL

theorem merkleRoot_eq (cols : List (Nat × List M31)) :
    merkleRoot cols = treeNode cols (nOf cols) (nOf cols) 0 := by
  unfold merkleRoot
  rw [layerAt_eq cols 0 (Nat.zero_le _)]
  rw [rangeMap_getD _ _ _ _ (by norm_num)]
  rw [Nat.sub_zero]

/-! ## Frontier membership and lookup lemmas -/

theorem mem_layerQueries {q : Nat → List Nat} {n k i : Nat} :
    i ∈ layerQueries q n k ↔ i < 2 ^ (n - k) ∧ neededK q n k i := by
  simp [layerQueries, List.mem_filter, List.mem_range]

theorem lookup_zip_map_mem {l : List Nat} {f : Nat → List Nat} {c : Nat} (hc : c ∈ l) :
    (l.zip (l.map f)).lookup c = some (f c) := by
  induction l with
  | nil => simp at hc
  | cons a l ih =>
    by_cases hac : c = a
    · subst hac
      simp [List.lookup]
    · rcases List.mem_cons.mp hc with heq | hmem
      · exact absurd heq hac
      · have hbeq : (c == a) = false := beq_eq_false_iff_ne.mpr hac
        simp only [List.map_cons, List.zip_cons_cons, List.lookup, hbeq]
        exact ih hmem

theorem lookup_zip_map_none {l : List Nat} {f : Nat → List Nat} {c : Nat} (hc : c ∉ l) :
    (l.zip (l.map f)).lookup c = none := by
  induction l with
  | nil => rfl
  | cons a l ih =>
    have hacne : c ≠ a := fun h => hc (by rw [h]; exact List.mem_cons_self a l)
    have hbeq : (c == a) = false := beq_eq_false_iff_ne.mpr hacne
    have hcl : c ∉ l := fun h => hc (List.mem_cons_of_mem a h)
    simp only [List.map_cons, List.zip_cons_cons, List.lookup, hbeq]
    exact ih hcl

/-! ## Opened values reshaped per layer -/

theorem valsFilter_general (n L : Nat) (q : Nat → List Nat) :
    ∀ (cols : List (Nat × List M31)),
      valsForLayer (cols.map (fun p => p.1))
          (cols.map (fun p => (layerQueries q n (n - p.1)).map (fun i => p.2.getD i 0))) L =
        ((cols.filter (fun p => p.1 == L)).map (fun p => p.2)).map
          (fun c => (layerQueries q n (n - L)).map (fun i => c.getD i 0)) := by
  intro cols
  induction cols with
  | nil => rfl
  | cons p cols ih =>
    simp only [valsForLayer] at ih ⊢
    simp only [List.map_cons, List.zip_cons_cons, List.filter_cons]
    by_cases hp : p.1 = L
    · have hb : (p.1 == L) = true := beq_iff_eq.mpr hp
      simp only [hb, if_true, List.map_cons]
      rw [hp]
      exact congrArg _ ih
    · have hb : (p.1 == L) = false := beq_eq_false_iff_ne.mpr hp
      simp only [hb, if_false]
      exact ih

theorem valsForLayer_decommit (cols : List (Nat × List M31)) (q : Nat → List Nat) (L : Nat) :
    valsForLayer (cols.map (fun p => p.1)) (decommitValues cols q) L =
      (colsAt cols L).map
        (fun c => (layerQueries q (nOf cols) (nOf cols - L)).map (fun i => c.getD i 0)) := by
  unfold decommitValues colsAt
  exact valsFilter_general (nOf cols) L q cols

theorem rowsForLayer_decommit (cols : List (Nat × List M31)) (q : Nat → List Nat) (L : Nat) :
    rowsForLayer q (nOf cols) (cols.map (fun p => p.1)) (decommitValues cols q) L =
      (layerQueries q (nOf cols) (nOf cols - L)).map
        (fun i => (colsAt cols L).map (fun c => c.getD i 0)) := by
  unfold rowsForLayer
  rw [valsForLayer_decommit]
  apply List.ext_getElem
  · simp
  · intro r h1 h2
    have hr : r < (layerQueries q (nOf cols) (nOf cols - L)).length := by simpa using h2
    simp only [List.getElem_map, List.getElem_range]
    rw [List.map_map]
    apply List.map_congr_left
    intro c _
    simp only [Function.comp]
    rw [getD_eq_getElem_of_lt _ r _ (by simpa using hr), List.getElem_map]

/-! ## Witness chunks consumed by the verifier -/

theorem nodeWitnessChunk_eq (cols : List (Nat × List M31)) (q : Nat → List Nat) (L i : Nat)
    (h1 : L < nOf cols) (hi : i < 2 ^ L) :
    nodeWitnessChunk cols q (nOf cols) L i =
      (if neededK q (nOf cols) (nOf cols - (L + 1)) (2 * i) then []
       else [treeNode cols (nOf cols) (nOf cols - (L + 1)) (2 * i)]) ++
      (if neededK q (nOf cols) (nOf cols - (L + 1)) (2 * i + 1) then []
       else [treeNode cols (nOf cols) (nOf cols - (L + 1)) (2 * i + 1)]) := by
  unfold nodeWitnessChunk
  rw [layerAt_eq cols (L + 1) (by omega)]
  have h2 : 2 ^ (L + 1) = 2 ^ L * 2 := pow_succ 2 L
  rw [rangeMap_getD _ _ _ _ (by omega), rangeMap_getD _ _ _ _ (by omega)]

theorem getChild_mem (cols : List (Nat × List M31)) (q : Nat → List Nat) (L c : Nat)
    (hL : L < nOf cols) (hc : c < 2 ^ (L + 1))
    (hneed : neededK q (nOf cols) (nOf cols - (L + 1)) c = true) (w : List (List Nat)) :
    getChild ((layerQueries q (nOf cols) (nOf cols - (L + 1))).zip
        ((layerQueries q (nOf cols) (nOf cols - (L + 1))).map
          (treeNode cols (nOf cols) (nOf cols - (L + 1))))) w c =
      (treeNode cols (nOf cols) (nOf cols - (L + 1)) c, w) := by
  have hnL : nOf cols - (nOf cols - (L + 1)) = L + 1 := by omega
  have hcmem : c ∈ layerQueries q (nOf cols) (nOf cols - (L + 1)) :=
    mem_layerQueries.mpr ⟨by rw [hnL]; exact hc, hneed⟩
  unfold getChild
  rw [lookup_zip_map_mem hcmem]

theorem getChild_pop (cols : List (Nat × List M31)) (q : Nat → List Nat) (L c : Nat)
    (hneed : neededK q (nOf cols) (nOf cols - (L + 1)) c = false) (x : List Nat)
    (w : List (List Nat)) :
    getChild ((layerQueries q (nOf cols) (nOf cols - (L + 1))).zip
        ((layerQueries q (nOf cols) (nOf cols - (L + 1))).map
          (treeNode cols (nOf cols) (nOf cols - (L + 1))))) (x :: w) c =
      (x, w) := by
  have hcnot : c ∉ layerQueries q (nOf cols) (nOf cols - (L + 1)) := by
    intro hmem
    rw [mem_layerQueries] at hmem
    rw [hneed] at hmem
    simp at hmem
  unfold getChild
  rw [lookup_zip_map_none hcnot]
  rfl

/-! ## Layer recomputation matches the committed hashes -/

theorem processNodes_none : ∀ (ns : List (Nat × List M31)) (w : List (List Nat)),
    verifyLayerNodes none ns w = (ns.map (fun nv => hashNode none nv.2), w) := by
  intro ns
  induction ns with
  | nil => intro w; rfl
  | cons nv ns ih =>
    intro w
    simp only [verifyLayerNodes, ih, List.map_cons]

theorem verifyLayerNodes_cons_resolved (assoc : List (Nat × List Nat)) (i : Nat)
    (vals : List M31) (rest : List (Nat × List M31)) (w w1 w2 : List (List Nat))
    (h1 h2 : List Nat)
    (e1 : getChild assoc w (2 * i) = (h1, w1))
    (e2 : getChild assoc w1 (2 * i + 1) = (h2, w2)) :
    verifyLayerNodes (some assoc) ((i, vals) :: rest) w =
      (hashNode (some (h1, h2)) vals :: (verifyLayerNodes (some assoc) rest w2).1,
        (verifyLayerNodes (some assoc) rest w2).2) := by
  simp only [verifyLayerNodes, e1, e2]

theorem processNodes_some (cols : List (Nat × List M31)) (q : Nat → List Nat) (L : Nat)
    (hL : L < nOf cols) :
    ∀ (ns : List Nat), (∀ i ∈ ns, i < 2 ^ L) → ∀ (w' : List (List Nat)),
      verifyLayerNodes
          (some ((layerQueries q (nOf cols) (nOf cols - (L + 1))).zip
            ((layerQueries q (nOf cols) (nOf cols - (L + 1))).map
              (treeNode cols (nOf cols) (nOf cols - (L + 1))))))
          (ns.map (fun i => (i, (colsAt cols L).map (fun c => c.getD i 0))))
          ((ns.map (nodeWitnessChunk cols q (nOf cols) L)).flatten ++ w') =
        (ns.map (fun i =>
          hashNode (some (treeNode cols (nOf cols) (nOf cols - (L + 1)) (2 * i),
              treeNode cols (nOf cols) (nOf cols - (L + 1)) (2 * i + 1)))
            ((colsAt cols L).map (fun c => c.getD i 0))), w') := by
  intro ns
  induction ns with
  | nil => intro _ w'; rfl
  | cons i ns ih =>
    intro hmem w'
    have hi : i < 2 ^ L := hmem i (List.mem_cons_self _ _)
    have hmem' : ∀ j ∈ ns, j < 2 ^ L := fun j hj => hmem j (List.mem_cons_of_mem _ hj)
    have h2 : 2 ^ (L + 1) = 2 ^ L * 2 := pow_succ 2 L
    simp only [List.map_cons, List.flatten_cons, List.append_assoc]
    rw [nodeWitnessChunk_eq cols q L i hL hi, List.append_assoc]
    cases hc1 : neededK q (nOf cols) (nOf cols - (L + 1)) (2 * i) <;>
      cases hc2 : neededK q (nOf cols) (nOf cols - (L + 1)) (2 * i + 1)
    · rw [if_neg Bool.false_ne_true, if_neg Bool.false_ne_true, List.singleton_append,
        List.singleton_append]
      rw [verifyLayerNodes_cons_resolved _ _ _ _ _ _ _ _ _
        (getChild_pop cols q L (2 * i) hc1 _ _)
        (getChild_pop cols q L (2 * i + 1) hc2 _ _)]
      rw [ih hmem' w']
    · rw [if_neg Bool.false_ne_true, if_pos rfl, List.singleton_append, List.nil_append]
      rw [verifyLayerNodes_cons_resolved _ _ _ _ _ _ _ _ _
        (getChild_pop cols q L (2 * i) hc1 _ _)
        (getChild_mem cols q L (2 * i + 1) hL (by omega) hc2 _)]
      rw [ih hmem' w']
    · rw [if_pos rfl, if_neg Bool.false_ne_true, List.nil_append, List.singleton_append]
      rw [verifyLayerNodes_cons_resolved _ _ _ _ _ _ _ _ _
        (getChild_mem cols q L (2 * i) hL (by omega) hc1 _)
        (getChild_pop cols q L (2 * i + 1) hc2 _ _)]
      rw [ih hmem' w']
    · rw [if_pos rfl, if_pos rfl, List.nil_append, List.nil_append]
      rw [verifyLayerNodes_cons_resolved _ _ _ _ _ _ _ _ _
        (getChild_mem cols q L (2 * i) hL (by omega) hc1 _)
        (getChild_mem cols q L (2 * i + 1) hL (by omega) hc2 _)]
      rw [ih hmem' w']

theorem processLayer (cols : List (Nat × List M31)) (q : Nat → List Nat) (L : Nat)
    (hL : L ≤ nOf cols) (prev : Option (List (Nat × List Nat)))
    (hprev : (L = nOf cols ∧ prev = none) ∨
      (L < nOf cols ∧ prev = some ((layerQueries q (nOf cols) (nOf cols - (L + 1))).zip
        ((layerQueries q (nOf cols) (nOf cols - (L + 1))).map
          (treeNode cols (nOf cols) (nOf cols - (L + 1))))))) (w' : List (List Nat)) :
    verifyLayerNodes prev
        ((layerQueries q (nOf cols) (nOf cols - L)).zip
          (rowsForLayer q (nOf cols) (cols.map (fun p => p.1)) (decommitValues cols q) L))
        (layerWitnessChunk cols q (nOf cols) L ++ w') =
      ((layerQueries q (nOf cols) (nOf cols - L)).map (treeNode cols (nOf cols) (nOf cols - L)),
        w') := by
  rw [rowsForLayer_decommit, zip_map_self]
  rcases hprev with ⟨hn, hpn⟩ | ⟨hn, hps⟩
  · subst hpn
    subst hn
    unfold layerWitnessChunk
    rw [if_pos (le_refl _), List.nil_append]
    rw [processNodes_none]
    refine congrArg (fun hs => (hs, w')) ?_
    rw [List.map_map]
    apply List.map_congr_left
    intro i hi
    simp only [Function.comp, Nat.sub_self, treeNode]
  · subst hps
    unfold layerWitnessChunk
    rw [if_neg (by omega)]
    have hb : ∀ i ∈ layerQueries q (nOf cols) (nOf cols - L), i < 2 ^ L := by
      intro i hi
      rw [mem_layerQueries] at hi
      have hbnd := hi.1
      rwa [show nOf cols - (nOf cols - L) = L by omega] at hbnd
    rw [processNodes_some cols q L hn _ hb w']
    refine congrArg (fun hs => (hs, w')) ?_
    apply List.map_congr_left
    intro i hi
    have harr : nOf cols - L = (nOf cols - (L + 1)) + 1 := by omega
    rw [harr]
    simp only [treeNode]
    rw [show nOf cols - (nOf cols - (L + 1) + 1) = L by omega]

theorem verifyDown_spec (cols : List (Nat × List M31)) (q : Nat → List Nat) :
    ∀ (L : Nat), L ≤ nOf cols →
      ∀ (prev : Option (List (Nat × List Nat))) (w' : List (List Nat)),
        ((L = nOf cols ∧ prev = none) ∨
          (L < nOf cols ∧ prev = some ((layerQueries q (nOf cols) (nOf cols - (L + 1))).zip
            ((layerQueries q (nOf cols) (nOf cols - (L + 1))).map
              (treeNode cols (nOf cols) (nOf cols - (L + 1))))))) →
        verifyDown q (nOf cols) (cols.map (fun p => p.1)) (decommitValues cols q) L prev
            (witnessDown cols q (nOf cols) L ++ w') =
          ((layerQueries q (nOf cols) (nOf cols)).zip
            ((layerQueries q (nOf cols) (nOf cols)).map (treeNode cols (nOf cols) (nOf cols))),
            w') := by
  intro L
  induction L with
  | zero =>
    intro _ prev w' hprev
    have hp := processLayer cols q 0 (Nat.zero_le _) prev hprev w'
    rw [Nat.sub_zero] at hp
    simp only [verifyDown, witnessDown]
    rw [hp]
  | succ L ih =>
    intro hLn prev w' hprev
    have hp := processLayer cols q (L + 1) hLn prev hprev (witnessDown cols q (nOf cols) L ++ w')
    simp only [verifyDown, witnessDown, List.append_assoc]
    rw [hp]
    exact ih (by omega) _ w' (Or.inr ⟨by omega, rfl⟩)

/-! ## Count checks pass on honest decommitments -/

theorem nodeWitnessChunk_length (cols : List (Nat × List M31)) (q : Nat → List Nat)
    (n L i : Nat) : (nodeWitnessChunk cols q n L i).length = expectedNodeWitness q n L i := by
  unfold nodeWitnessChunk expectedNodeWitness
  cases h1 : neededK q n (n - (L + 1)) (2 * i) <;>
    cases h2 : neededK q n (n - (L + 1)) (2 * i + 1) <;> simp

theorem layerWitnessChunk_length (cols : List (Nat × List M31)) (q : Nat → List Nat)
    (n L : Nat) : (layerWitnessChunk cols q n L).length = expectedLayerWitness q n L := by
  unfold layerWitnessChunk expectedLayerWitness
  by_cases h : n ≤ L
  · rw [if_pos h, if_pos h]
    rfl
  · rw [if_neg h, if_neg h, List.length_flatten, List.map_map]
    refine congrArg List.sum ?_
    apply List.map_congr_left
    intro i _
    exact nodeWitnessChunk_length cols q n L i

theorem witnessDown_length (cols : List (Nat × List M31)) (q : Nat → List Nat) (n : Nat) :
    ∀ L, (witnessDown cols q n L).length = expectedWitnessDown q n L := by
  intro L
  induction L with
  | zero => exact layerWitnessChunk_length cols q n 0
  | succ L ih =>
    simp only [witnessDown, expectedWitnessDown, List.length_append, ih,
      layerWitnessChunk_length]

theorem decommitValues_lengths (cols : List (Nat × List M31)) (q : Nat → List Nat) :
    ∀ p ∈ (cols.map (fun p => p.1)).zip (decommitValues cols q),
      p.2.length = (layerQueries q (nOf cols) (nOf cols - p.1)).length := by
  intro p hp
  unfold decommitValues at hp
  rw [List.zip_map'] at hp
  obtain ⟨c, _, rfl⟩ := List.mem_map.mp hp
  simp

/-- C2: for well-formed columns and any sorted deduplicated in-range query set,
verifying the opened values and witness produced by decommit against the root
produced by commit succeeds; commit and decommit are total functions on such
input, so they never fail. -/
theorem merkle_roundtrip_verify_ok (cols : List (Nat × List M31)) (q : Nat → List Nat)
    (hq : ∀ L ≤ nOf cols, (q L).Sorted (· < ·) ∧ ∀ i ∈ q L, i < 2 ^ L)
    (hcols : ∀ p ∈ cols, p.2.length = 2 ^ p.1) :
    merkleVerify (merkleRoot cols) (cols.map (fun p => p.1)) q
      (decommitValues cols q) (decommitWitness cols q) = .ok () := by
  simp only [merkleVerify]
  rw [show maxLogSize (List.map (fun p => p.1) cols) = nOf cols from rfl]
  have e1 : ((cols.map (fun p => p.1)).zip (decommitValues cols q)).any
      (fun p => p.2.length < (layerQueries q (nOf cols) (nOf cols - p.1)).length) = false := by
    rw [List.any_eq_false]
    intro p hp
    simp only [decide_eq_true_eq]
    rw [decommitValues_lengths cols q p hp]
    omega
  have e2 : ((cols.map (fun p => p.1)).zip (decommitValues cols q)).any
      (fun p => (layerQueries q (nOf cols) (nOf cols - p.1)).length < p.2.length) = false := by
    rw [List.any_eq_false]
    intro p hp
    simp only [decide_eq_true_eq]
    rw [decommitValues_lengths cols q p hp]
    omega
  rw [e1, if_neg Bool.false_ne_true, e2, if_neg Bool.false_ne_true]
  have e3 : (decommitWitness cols q).length = expectedWitnessLength q (nOf cols) :=
    witnessDown_length cols q (nOf cols) (nOf cols)
  rw [e3, if_neg (by omega), if_neg (by omega)]
  have e4 := verifyDown_spec cols q (nOf cols) (le_refl _) none []
    (Or.inl ⟨rfl, rfl⟩)
  rw [List.append_nil] at e4
  simp only [decommitWitness]
  rw [e4]
  unfold layerQueries
  rw [Nat.sub_self, pow_zero, (by decide : List.range 1 = [0])]
  cases hneed : neededK q (nOf cols) (nOf cols) 0
  · simp [hneed]
  · simp [hneed, merkleRoot_eq]

/-- C2 witness: the round trip applied to a concrete two-layer commitment of
two columns with one queried row at the finer layer. -/
theorem merkle_roundtrip_verify_ok_witness :
    merkleVerify (merkleRoot [(1, [1, 2]), (0, [3])])
      (([(1, [1, 2]), (0, [3])] : List (Nat × List M31)).map (fun p => p.1))
      (fun L => if L = 1 then [1] else [])
      (decommitValues [(1, [1, 2]), (0, [3])] (fun L => if L = 1 then [1] else []))
      (decommitWitness [(1, [1, 2]), (0, [3])] (fun L => if L = 1 then [1] else [])) =
      .ok () :=
  merkle_roundtrip_verify_ok [(1, [1, 2]), (0, [3])] (fun L => if L = 1 then [1] else [])
    (by decide) (by decide)
